import Mathlib

/-!
Shallow embedding of the KL-4xBuyers-Most-Recent-Product-Reporting pipeline.

The repository has three scripts:
  * `fetch_klaviyo_profiles.js` — paginated segment fetch deduplicating by
    normalized email, with bounded per-page retries and an incremental
    snapshot write after every page (`fetchAllKlaviyoSegmentProfiles`);
  * an enrichment script (NDJSON variant) — loads the set of already
    processed emails from the NDJSON log (`loadProcessedEmailsFromNDJSON`),
    looks up a Shopify customer by email with unbounded fixed-delay retry on
    HTTP 429 (`getShopifyCustomerIdByEmail`), fetches the most recent order,
    and appends one enriched record per success (`enrichKlaviyoProfiles`);
  * `generatePieChart.mjs` — streams the NDJSON log, counts records per
    `title (SKU: sku)` key (`processNDJSON`) and charts the top 10 keys
    sorted descending by count (`createPieChart`).

Network responses and JSON parse outcomes are modelled as oracle inputs
(lists of response values / pre-parsed line values); file contents are lists
of lines; JavaScript `Set` objects are modelled as lists with membership
tests.  JS string truthiness tests (`if (email)`) become `≠ ""` tests on
values that are present.
-/

namespace KLReport

/-- ASCII model of JavaScript `String.prototype.toLowerCase`. -/
def jsToLower (s : String) : String := ⟨s.data.map Char.toLower⟩

/-- Model of JavaScript `String.prototype.trim`: drop whitespace from both
ends. -/
def jsTrim (s : String) : String :=
  ⟨((s.data.dropWhile Char.isWhitespace).reverse.dropWhile Char.isWhitespace).reverse⟩

/-! Section: Paginated fetcher (`fetch_klaviyo_profiles.js`) -/

/-- One element of a page's `json.data` array: the fields the fetcher reads.
`attrEmail` models the optional-chained `profile.attributes?.email`. -/
structure ApiProfile where
  attrEmail : Option String
  id : String
deriving DecidableEq, Repr

/-- A deduplicated profile as pushed by the fetcher:
`{ email, profileId: profile.id }`. -/
structure FetchProfile where
  email : String
  profileId : String
deriving DecidableEq, Repr

/-- Model of `profile.attributes?.email?.toLowerCase().trim()`. -/
def normEmail (p : ApiProfile) : Option String :=
  p.attrEmail.map (fun s => jsTrim (jsToLower s))

/-- Outcome of one `fetch` attempt for a segment page: either a valid
`json.data` array, or a thrown error / invalid data format. -/
inductive AttemptResult where
  | ok (data : List ApiProfile)
  | err
deriving DecidableEq, Repr

/-- The per-page retry loop of `fetchAllKlaviyoSegmentProfiles`:
`while (attempt < maxRetries) { try { fetch; break } catch { attempt++;
sleep(500 * attempt) } }`.  Consumes one oracle attempt outcome per try;
returns the fetched page (or `none` when retries exhaust or the oracle runs
dry) together with the list of sleep durations in milliseconds. -/
def retryPage (maxRetries : Nat) : List AttemptResult → Nat → Option (List ApiProfile) × List Nat
  | attempts, attempt =>
    if attempt < maxRetries then
      match attempts with
      | [] => (none, [])
      | .ok d :: _ => (some d, [])
      | .err :: rest =>
        let r := retryPage maxRetries rest (attempt + 1)
        (r.1, 500 * (attempt + 1) :: r.2)
    else (none, [])

/-- The inner `for (const profile of json.data)` loop: normalize the email,
and push the profile when the email is truthy and unseen, recording it in
`seenEmails`. -/
def processPage : List String → List FetchProfile → List ApiProfile → List String × List FetchProfile
  | seen, profiles, [] => (seen, profiles)
  | seen, profiles, p :: rest =>
    match normEmail p with
    | some e =>
      if e ≠ "" ∧ e ∉ seen then
        processPage (e :: seen) (profiles ++ [⟨e, p.id⟩]) rest
      else
        processPage seen profiles rest
    | none => processPage seen profiles rest

/-- State of the fetcher's outer `while` loop: the `seenEmails` set, the
accumulated `profiles` array, and the sequence of snapshots written to
`klaviyo_profiles.json` (each write overwrites the file; we keep the whole
history to reason about crash points). -/
structure FetchState where
  seenEmails : List String
  profiles : List FetchProfile
  writes : List (List FetchProfile)
deriving DecidableEq, Repr

/-- The outer pagination loop of `fetchAllKlaviyoSegmentProfiles`.  One
oracle entry per page: the list of attempt outcomes for that page's retry
loop.  Processing stops when `profiles.length < limit` fails, when a page's
retries exhaust, or when the page list (the upstream `links.next` chain)
ends.  After each successful page the snapshot `profiles.slice(0, limit)`
is written. -/
def fetchLoop (limit maxRetries : Nat) : List (List AttemptResult) → FetchState → FetchState
  | [], st => st
  | atts :: rest, st =>
    if st.profiles.length < limit then
      match (retryPage maxRetries atts 0).1 with
      | none => st
      | some pg =>
        fetchLoop limit maxRetries rest
          ⟨(processPage st.seenEmails st.profiles pg).1,
           (processPage st.seenEmails st.profiles pg).2,
           st.writes ++ [(processPage st.seenEmails st.profiles pg).2.take limit]⟩
    else st

/-- The whole `fetchAllKlaviyoSegmentProfiles(limit, maxRetries)` run against an
oracle page list, starting from empty state. -/
def fetchAllKlaviyoSegmentProfiles (limit maxRetries : Nat)
    (pageAttempts : List (List AttemptResult)) : FetchState :=
  fetchLoop limit maxRetries pageAttempts ⟨[], [], []⟩

/-- The normalized usable emails occurring in a list of pages: those that
are present and non-empty after lowercasing and trimming. -/
def usableEmails (pages : List (List ApiProfile)) : List String :=
  (pages.flatten.filterMap normEmail).filter (fun e => e ≠ "")

/-- Wrap plain pages as single-attempt oracles that always succeed. -/
def okPages (pages : List (List ApiProfile)) : List (List AttemptResult) :=
  pages.map (fun pg => [AttemptResult.ok pg])

/-! Section: Enricher (NDJSON variant): resumability log -/

/-- A line of the NDJSON log after `JSON.parse`: `invalid` when the parse
throws, otherwise the parsed object's `email` field (absent or a string). -/
inductive ParsedLine where
  | invalid
  | valid (email : Option String)
deriving DecidableEq, Repr

/-- JS `Set.prototype.add` on the insertion-ordered list model. -/
def addUnique (l : List String) (e : String) : List String :=
  if e ∈ l then l else l ++ [e]

/-- One iteration of the `for (const line of lines)` loop in
`loadProcessedEmailsFromNDJSON`: on a parse failure, warn (recorded in the
second component) and skip the line; otherwise add `json.email` to the set
when truthy. -/
def loadStep (acc : List String × List ParsedLine) (ln : ParsedLine) :
    List String × List ParsedLine :=
  match ln with
  | .invalid => (acc.1, acc.2 ++ [ParsedLine.invalid])
  | .valid none => acc
  | .valid (some e) => if e ≠ "" then (addUnique acc.1 e, acc.2) else acc

/-- Model of `loadProcessedEmailsFromNDJSON`: for each line, `JSON.parse`; on throw,
warn and skip the line; otherwise add `json.email` to the set when truthy.
Returns `Array.from(emails)` together with the list of lines warned about
(the `console.warn` calls for invalid lines). -/
def loadProcessedEmailsFromNDJSON (lines : List ParsedLine) : List String × List ParsedLine :=
  lines.foldl loadStep ([], [])

/-! Section: Enricher: Shopify lookups -/

/-- The fields of a Shopify customer the enricher reads. -/
structure Customer where
  id : String
  email : String
deriving DecidableEq, Repr

/-- One response of the customer-search endpoint: HTTP 429, a JSON body
with a `customers` array, or a thrown fetch/parse error. -/
inductive ShopifyResp where
  | rate
  | ok (customers : List Customer)
  | err
deriving DecidableEq, Repr

/-- Model of `getShopifyCustomerIdByEmail(email)` (NDJSON-variant script): on a 429
response, sleep 1000 ms and retry the same email, with no attempt cap and
no backoff growth; on a body with a non-empty `customers` array return its
first element; otherwise (empty result or thrown error) return `null`.
Each attempt consumes one oracle response; the second component records the
sleeps performed, in milliseconds. -/
def getShopifyCustomerIdByEmail (email : String) : List ShopifyResp → Option Customer × List Nat
  | [] => (none, [])
  | .rate :: rest =>
    let r := getShopifyCustomerIdByEmail email rest
    (r.1, 1000 :: r.2)
  | .ok cs :: _ => (cs.head?, [])
  | .err :: _ => (none, [])

/-! Section: Enricher: main loop -/

/-- Order summary extracted by `getMostRecentOrder`. -/
structure OrderInfo where
  title : String
  sku : String
  orderDate : String
deriving DecidableEq, Repr

/-- A profile read from `klaviyo_profiles.json` by the enricher. -/
structure Profile where
  email : String
  profileId : String
deriving DecidableEq, Repr

/-- An enriched record `{ profileId, email, mostRecentOrder }` appended to
`enriched_profiles2.ndjson`. -/
structure EnrichedProfile where
  profileId : String
  email : String
  mostRecentOrder : OrderInfo
deriving DecidableEq, Repr

/-- Combined outcome of the per-profile Shopify calls, as seen by the body
of `enrichKlaviyoProfiles`: no customer found (including lookup errors), a
customer but no order, a thrown exception caught by the loop's `catch`, or
a customer with its most recent order. -/
inductive LookupResult where
  | noCustomer
  | noOrder (customerId : String)
  | failure
  | order (customerId : String) (o : OrderInfo)
deriving DecidableEq, Repr

/-- True on the outcomes that make the loop body `continue` without
appending: failed lookup, missing customer, or missing order. -/
def lookupFailed : LookupResult → Bool
  | .noCustomer => true
  | .noOrder _ => true
  | .failure => true
  | .order _ _ => false

/-- State of the enrichment loop: the in-memory `enrichedProfiles` array,
the records appended to the NDJSON log during this run, and
`processedCount`. -/
structure EnrichState where
  enrichedProfiles : List EnrichedProfile
  appended : List EnrichedProfile
  processedCount : Nat
deriving DecidableEq, Repr

/-- One iteration of the `for (const profile of profiles)` loop in
`enrichKlaviyoProfiles`: skip when the email is in `processedEmails`
(which is loaded once and never updated — `updateProcessedProfiles` is a
no-op); otherwise run the lookups and on success append the enriched
record.  Every branch increments `processedCount` by the time the next
profile is considered (the skip and error branches immediately, the
success branch after appending). -/
def enrichStep (processedEmails : List String) (oracle : String → LookupResult)
    (st : EnrichState) (p : Profile) : EnrichState :=
  if p.email ∈ processedEmails then
    { st with processedCount := st.processedCount + 1 }
  else
    match oracle p.email with
    | .noCustomer => { st with processedCount := st.processedCount + 1 }
    | .noOrder _ => { st with processedCount := st.processedCount + 1 }
    | .failure => { st with processedCount := st.processedCount + 1 }
    | .order _ o =>
      let r : EnrichedProfile := ⟨p.profileId, p.email, o⟩
      ⟨st.enrichedProfiles ++ [r], st.appended ++ [r], st.processedCount + 1⟩

/-- The whole `enrichKlaviyoProfiles` loop over the profile list. -/
def enrichKlaviyoProfiles (processedEmails : List String)
    (oracle : String → LookupResult) : List Profile → EnrichState → EnrichState
  | [], st => st
  | p :: rest, st =>
    enrichKlaviyoProfiles processedEmails oracle rest (enrichStep processedEmails oracle st p)

/-- The enrichment run: load `processedEmails` from the existing NDJSON log
once, then enrich every profile starting from the empty state. -/
def runEnricher (oracle : String → LookupResult) (priorLines : List ParsedLine)
    (profiles : List Profile) : EnrichState :=
  enrichKlaviyoProfiles (loadProcessedEmailsFromNDJSON priorLines).1 oracle profiles ⟨[], [], 0⟩

/-- Serializing an appended record back to an NDJSON line: a valid JSON
object whose `email` field is the record's email. -/
def recordLine (r : EnrichedProfile) : ParsedLine :=
  ParsedLine.valid (some r.email)

/-- The NDJSON log after a run: the prior file content followed by the
lines appended during the run. -/
def finalLog (priorLines : List ParsedLine) (appended : List EnrichedProfile) : List ParsedLine :=
  priorLines ++ appended.map recordLine

/-- Number of records for a given email in a log: lines that parse to an
object whose `email` field is exactly `e`. -/
def countEmail (lines : List ParsedLine) (e : String) : Nat :=
  lines.countP (fun ln => ln = ParsedLine.valid (some e))

/-! Section: Chart aggregator (`generatePieChart.mjs`) -/

/-- The fields of `profile.mostRecentOrder` the aggregator reads. -/
structure OrderRec where
  title : Option String
  sku : Option String
deriving DecidableEq, Repr

/-- A line of the enriched log as seen by `processNDJSON`: blank (skipped
by `if (!line.trim()) continue`), unparseable JSON (swallowed by the empty
`catch`), or a parsed profile with its optional `mostRecentOrder`. -/
inductive ChartLine where
  | blank
  | invalid
  | record (order : Option OrderRec)
deriving DecidableEq, Repr

/-- Model of `counts[key] = (counts[key] || 0) + 1` on an insertion-ordered
association-list model of the JS object. -/
def bump (counts : List (String × Nat)) (k : String) : List (String × Nat) :=
  if counts.any (fun p => p.1 = k) then
    counts.map (fun p => if p.1 = k then (p.1, p.2 + 1) else p)
  else
    counts ++ [(k, 1)]

/-- One line's contribution to the counts in `processNDJSON`: only lines
whose parsed `mostRecentOrder` has truthy `title` and `sku` bump the
`title (SKU: sku)` key. -/
def countStep (counts : List (String × Nat)) (ln : ChartLine) : List (String × Nat) :=
  match ln with
  | .blank => counts
  | .invalid => counts
  | .record none => counts
  | .record (some o) =>
    match o.title, o.sku with
    | some t, some s =>
      if t ≠ "" ∧ s ≠ "" then bump counts (t ++ " (SKU: " ++ s ++ ")") else counts
    | some _, none => counts
    | none, some _ => counts
    | none, none => counts

/-- Model of `processNDJSON`: count, per `title (SKU: sku)` key, the lines whose
parsed `mostRecentOrder` has truthy `title` and `sku`; every line (blank
and invalid included) contributes to `totalProfiles`. -/
def processNDJSON (lines : List ChartLine) : List (String × Nat) × Nat :=
  (lines.foldl countStep [], lines.length)

/-- Stable descending insertion by count, modelling the stable JS
`Array.prototype.sort((a, b) => b[1] - a[1])`: an element is placed after
every earlier element of greater or equal count. -/
def insertDesc (x : String × Nat) : List (String × Nat) → List (String × Nat)
  | [] => [x]
  | y :: ys => if y.2 < x.2 then x :: y :: ys else y :: insertDesc x ys

/-- Stable sort of the count entries, descending by count. -/
def sortDesc : List (String × Nat) → List (String × Nat)
  | [] => []
  | x :: xs => insertDesc x (sortDesc xs)

/-- The selection step of `createPieChart`:
`Object.entries(counts).sort((a, b) => b[1] - a[1]).slice(0, MAX_PRODUCTS)`
with `MAX_PRODUCTS = 10`. -/
def topProducts (counts : List (String × Nat)) : List (String × Nat) :=
  (sortDesc counts).take 10

/-- The enriched log of the C8 test vector: three records of product A
(SKU 1) and one of product B (SKU 2). -/
def c8Lines : List ChartLine :=
  List.replicate 3 (ChartLine.record (some ⟨some "A", some "1"⟩)) ++
    [ChartLine.record (some ⟨some "B", some "2"⟩)]

/-- Lookup oracle for the duplicate-email counterexamples: every email
resolves to a customer with an order. -/
def alwaysOrder : String → LookupResult :=
  fun _ => LookupResult.order "c1" ⟨"Widget", "SKU-1", "2025-01-01"⟩

/-! Section: Helper lemmas -/

theorem mem_addUnique (l : List String) (x e : String) :
    e ∈ addUnique l x ↔ e ∈ l ∨ e = x := by
  unfold addUnique
  by_cases h : x ∈ l
  · simp only [h, if_true]
    constructor
    · exact Or.inl
    · rintro (he | rfl)
      · exact he
      · exact h
  · simp [h]

theorem mem_loadStep_foldl (lines : List ParsedLine) (acc : List String × List ParsedLine)
    (e : String) :
    e ∈ (lines.foldl loadStep acc).1 ↔
      e ∈ acc.1 ∨ (ParsedLine.valid (some e) ∈ lines ∧ e ≠ "") := by
  induction lines generalizing acc with
  | nil => simp
  | cons ln rest ih =>
    rw [List.foldl_cons, ih]
    cases ln with
    | invalid => simp [loadStep]
    | valid eo =>
      cases eo with
      | none => simp [loadStep]
      | some x =>
        by_cases hx : x = ""
        · subst hx
          simp only [loadStep, ne_eq, not_true_eq_false, if_false, ite_self]
          simp only [List.mem_cons]
          constructor
          · rintro (h | ⟨h1, h2⟩)
            · exact Or.inl h
            · exact Or.inr ⟨Or.inr h1, h2⟩
          · rintro (h | ⟨h1 | h1, h2⟩)
            · exact Or.inl h
            · cases h1
              simp at h2
            · exact Or.inr ⟨h1, h2⟩
        · simp only [loadStep, ne_eq, hx, not_false_eq_true, if_true, mem_addUnique,
            List.mem_cons]
          constructor
          · rintro ((h | rfl) | ⟨h1, h2⟩)
            · exact Or.inl h
            · exact Or.inr ⟨Or.inl rfl, hx⟩
            · exact Or.inr ⟨Or.inr h1, h2⟩
          · rintro (h | ⟨h1 | h1, h2⟩)
            · exact Or.inl (Or.inl h)
            · cases h1
              exact Or.inl (Or.inr rfl)
            · exact Or.inr ⟨h1, h2⟩

theorem mem_loadProcessedEmails (lines : List ParsedLine) (e : String) :
    e ∈ (loadProcessedEmailsFromNDJSON lines).1 ↔
      ParsedLine.valid (some e) ∈ lines ∧ e ≠ "" := by
  rw [loadProcessedEmailsFromNDJSON, mem_loadStep_foldl]
  simp

theorem warnings_loadStep_foldl (lines : List ParsedLine) (acc : List String × List ParsedLine) :
    (lines.foldl loadStep acc).2 =
      acc.2 ++ lines.filter (fun ln => ln = ParsedLine.invalid) := by
  induction lines generalizing acc with
  | nil => simp
  | cons ln rest ih =>
    rw [List.foldl_cons, ih]
    cases ln with
    | invalid => simp [loadStep]
    | valid eo =>
      cases eo with
      | none => simp [loadStep]
      | some x =>
        by_cases hx : x = "" <;> simp [loadStep, hx]

theorem enrichStep_count (pe : List String) (oracle : String → LookupResult)
    (st : EnrichState) (p : Profile) :
    (enrichStep pe oracle st p).processedCount = st.processedCount + 1 := by
  unfold enrichStep
  by_cases hp : p.email ∈ pe
  · simp [hp]
  · simp only [hp, if_false]
    cases oracle p.email <;> rfl

theorem enrich_count (pe : List String) (oracle : String → LookupResult)
    (l : List Profile) (st : EnrichState) :
    (enrichKlaviyoProfiles pe oracle l st).processedCount = st.processedCount + l.length := by
  induction l generalizing st with
  | nil => rfl
  | cons p rest ih =>
    rw [enrichKlaviyoProfiles, ih, enrichStep_count]
    simp [Nat.add_assoc, Nat.add_comm 1 rest.length]

theorem enrich_appended (pe : List String) (oracle : String → LookupResult)
    (l : List Profile) (st : EnrichState) :
    ∃ t, (enrichKlaviyoProfiles pe oracle l st).appended = st.appended ++ t ∧
      (t.map EnrichedProfile.email).Sublist (l.map Profile.email) ∧
      ∀ r ∈ t, r.email ∉ pe := by
  induction l generalizing st with
  | nil => exact ⟨[], by simp [enrichKlaviyoProfiles]⟩
  | cons p rest ih =>
    rw [enrichKlaviyoProfiles]
    by_cases hp : p.email ∈ pe
    · obtain ⟨t, ht1, ht2, ht3⟩ := ih { st with processedCount := st.processedCount + 1 }
      refine ⟨t, ?_, ht2.cons _, ht3⟩
      simpa [enrichStep, hp] using ht1
    · cases ho : oracle p.email with
      | noCustomer =>
        obtain ⟨t, ht1, ht2, ht3⟩ := ih { st with processedCount := st.processedCount + 1 }
        refine ⟨t, ?_, ht2.cons _, ht3⟩
        simpa [enrichStep, hp, ho] using ht1
      | noOrder cid =>
        obtain ⟨t, ht1, ht2, ht3⟩ := ih { st with processedCount := st.processedCount + 1 }
        refine ⟨t, ?_, ht2.cons _, ht3⟩
        simpa [enrichStep, hp, ho] using ht1
      | failure =>
        obtain ⟨t, ht1, ht2, ht3⟩ := ih { st with processedCount := st.processedCount + 1 }
        refine ⟨t, ?_, ht2.cons _, ht3⟩
        simpa [enrichStep, hp, ho] using ht1
      | order cid o =>
        obtain ⟨t, ht1, ht2, ht3⟩ :=
          ih ⟨st.enrichedProfiles ++ [⟨p.profileId, p.email, o⟩],
              st.appended ++ [⟨p.profileId, p.email, o⟩], st.processedCount + 1⟩
        refine ⟨⟨p.profileId, p.email, o⟩ :: t, ?_, ?_, ?_⟩
        · rw [enrichStep, if_neg hp, ho]
          simpa [List.append_assoc] using ht1
        · simpa using ht2.cons₂ p.email
        · intro r hr
          rcases List.mem_cons.mp hr with rfl | hr'
          · exact hp
          · exact ht3 r hr'

theorem retryPage_stop (m : Nat) (atts : List AttemptResult) (a : Nat) (h : ¬ a < m) :
    retryPage m atts a = (none, []) := by
  rw [retryPage.eq_def]
  simp [h]

theorem retryPage_ok (m : Nat) (d : List ApiProfile) (rest : List AttemptResult) (a : Nat)
    (h : a < m) : retryPage m (AttemptResult.ok d :: rest) a = (some d, []) := by
  rw [retryPage]
  simp [h]

theorem retryPage_replicate_err (m : Nat) (k : Nat) (rest : List AttemptResult) (a : Nat)
    (h : a + k ≤ m) :
    retryPage m (List.replicate k AttemptResult.err ++ rest) a =
      ((retryPage m rest (a + k)).1,
        (List.range k).map (fun i => 500 * (a + i + 1)) ++ (retryPage m rest (a + k)).2) := by
  induction k generalizing a with
  | zero => simp
  | succ n ih =>
    have ha : a < m := by omega
    rw [List.replicate_succ, List.cons_append, retryPage]
    simp only [if_pos ha]
    rw [ih (a + 1) (by omega)]
    have h1 : a + 1 + n = a + (n + 1) := by omega
    have h2 : (List.range (n + 1)).map (fun i => 500 * (a + i + 1)) =
        500 * (a + 1) :: (List.range n).map (fun i => 500 * (a + 1 + i + 1)) := by
      rw [List.range_succ_eq_map, List.map_cons, List.map_map]
      refine congrArg₂ _ (by omega) ?_
      apply List.map_congr_left
      intro i _
      simp [Function.comp]
      omega
    rw [h1, h2]
    simp

theorem countP_decide_le_one_of_nodup (l : List String) (e : String) (h : l.Nodup) :
    l.countP (fun x => decide (x = e)) ≤ 1 := by
  induction l with
  | nil => simp
  | cons x xs ih =>
    rcases List.nodup_cons.mp h with ⟨hx, hxs⟩
    rw [List.countP_cons]
    by_cases hxe : x = e
    · subst hxe
      have h0 : xs.countP (fun y => decide (y = x)) = 0 :=
        List.countP_eq_zero.mpr (fun a ha => by
          simp only [decide_eq_true_eq]
          rintro rfl
          exact hx ha)
      simp [h0]
    · simpa [hxe] using ih hxs

theorem processPage_append (pg : List ApiProfile) (seen : List String)
    (profs : List FetchProfile) :
    ∃ t, (processPage seen profs pg).2 = profs ++ t := by
  induction pg generalizing seen profs with
  | nil => exact ⟨[], by simp [processPage]⟩
  | cons p rest ih =>
    rw [processPage]
    cases hn : normEmail p with
    | none => exact ih seen profs
    | some e =>
      dsimp only
      by_cases hc : e ≠ "" ∧ e ∉ seen
      · rw [if_pos hc]
        obtain ⟨t, ht⟩ := ih (e :: seen) (profs ++ [⟨e, p.id⟩])
        exact ⟨⟨e, p.id⟩ :: t, by rw [ht]; simp⟩
      · rw [if_neg hc]
        exact ih seen profs

theorem processPage_inv (pg : List ApiProfile) (seen : List String) (profs : List FetchProfile)
    (hiff : ∀ x, x ∈ seen ↔ x ∈ profs.map FetchProfile.email)
    (hnd : (profs.map FetchProfile.email).Nodup) :
    (∀ x, x ∈ (processPage seen profs pg).1 ↔
        x ∈ (processPage seen profs pg).2.map FetchProfile.email) ∧
    ((processPage seen profs pg).2.map FetchProfile.email).Nodup ∧
    (∀ x, x ∈ (processPage seen profs pg).2.map FetchProfile.email ↔
        x ∈ profs.map FetchProfile.email ∨ ∃ p ∈ pg, normEmail p = some x ∧ x ≠ "") := by
  induction pg generalizing seen profs with
  | nil =>
    refine ⟨hiff, hnd, fun x => ?_⟩
    simp [processPage]
  | cons p rest ih =>
    rw [processPage]
    cases hn : normEmail p with
    | none =>
      obtain ⟨i1, i2, i3⟩ := ih seen profs hiff hnd
      refine ⟨i1, i2, fun x => ?_⟩
      rw [i3]
      simp only [List.mem_cons]
      constructor
      · rintro (hx | ⟨q, hq, hqe⟩)
        · exact Or.inl hx
        · exact Or.inr ⟨q, Or.inr hq, hqe⟩
      · rintro (hx | ⟨q, hq | hq, hqe⟩)
        · exact Or.inl hx
        · rw [← hq] at hn
          rw [hn] at hqe
          exact absurd hqe.1 (by simp)
        · exact Or.inr ⟨q, hq, hqe⟩
    | some e =>
      dsimp only
      by_cases hc : e ≠ "" ∧ e ∉ seen
      · rw [if_pos hc]
        have he : e ∉ profs.map FetchProfile.email := fun hmem => hc.2 ((hiff e).mpr hmem)
        have hiff' : ∀ x, x ∈ e :: seen ↔
            x ∈ (profs ++ [(⟨e, p.id⟩ : FetchProfile)]).map FetchProfile.email := by
          intro x
          simp only [List.mem_cons, List.map_append, List.mem_append, List.map_cons,
            List.map_nil, List.mem_singleton, hiff x]
          tauto
        have hnd' : ((profs ++ [(⟨e, p.id⟩ : FetchProfile)]).map FetchProfile.email).Nodup := by
          rw [List.map_append]
          refine List.Nodup.append hnd (by simp) ?_
          intro x hx hy
          simp only [List.map_cons, List.map_nil, List.mem_singleton] at hy
          exact he (hy ▸ hx)
        obtain ⟨i1, i2, i3⟩ := ih (e :: seen) (profs ++ [⟨e, p.id⟩]) hiff' hnd'
        refine ⟨i1, i2, fun x => ?_⟩
        rw [i3]
        simp only [List.map_append, List.mem_append, List.map_cons, List.map_nil,
          List.mem_singleton, List.mem_cons]
        constructor
        · rintro ((hx | (rfl | h0)) | ⟨q, hq, hqe⟩)
          · exact Or.inl hx
          · exact Or.inr ⟨p, Or.inl rfl, hn, hc.1⟩
          · exact absurd h0 (List.not_mem_nil _)
          · exact Or.inr ⟨q, Or.inr hq, hqe⟩
        · rintro (hx | ⟨q, hq | hq, hqe⟩)
          · exact Or.inl (Or.inl hx)
          · rw [← hq] at hn
            rw [hn] at hqe
            exact Or.inl (Or.inr (Or.inl (Option.some_injective _ hqe.1).symm))
          · exact Or.inr ⟨q, hq, hqe⟩
      · rw [if_neg hc]
        obtain ⟨i1, i2, i3⟩ := ih seen profs hiff hnd
        refine ⟨i1, i2, fun x => ?_⟩
        rw [i3]
        simp only [List.mem_cons]
        constructor
        · rintro (hx | ⟨q, hq, hqe⟩)
          · exact Or.inl hx
          · exact Or.inr ⟨q, Or.inr hq, hqe⟩
        · rintro (hx | ⟨q, hq | hq, hqe⟩)
          · exact Or.inl hx
          · rw [← hq] at hn
            rw [hn] at hqe
            have hxe : x = e := (Option.some_injective _ hqe.1).symm
            rcases not_and_or.mp hc with h1 | h2
            · exact absurd (hxe ▸ hqe.2) (by simpa using h1)
            · have : e ∈ seen := not_not.mp h2
              exact Or.inl (hxe ▸ (hiff e).mp this)
          · exact Or.inr ⟨q, hq, hqe⟩

theorem processPage_good (pg : List ApiProfile) (seen : List String)
    (profs : List FetchProfile)
    (h : ∀ q ∈ profs, q.email ≠ "" ∧ ∃ s, q.email = jsTrim (jsToLower s)) :
    ∀ q ∈ (processPage seen profs pg).2,
      q.email ≠ "" ∧ ∃ s, q.email = jsTrim (jsToLower s) := by
  induction pg generalizing seen profs with
  | nil => simpa [processPage] using h
  | cons p rest ih =>
    rw [processPage]
    cases hn : normEmail p with
    | none => exact ih seen profs h
    | some e =>
      dsimp only
      by_cases hc : e ≠ "" ∧ e ∉ seen
      · rw [if_pos hc]
        refine ih _ _ ?_
        intro q hq
        rcases List.mem_append.mp hq with hq' | hq'
        · exact h q hq'
        · rcases List.mem_singleton.mp hq' with rfl
          obtain ⟨s, hs1, hs2⟩ := Option.map_eq_some'.mp hn
          exact ⟨hc.1, s, hs2.symm⟩
      · rw [if_neg hc]
        exact ih seen profs h

theorem take_prefix_append (l t : List FetchProfile) (n : Nat) :
    l.take n <+: (l ++ t).take n := by
  rw [List.take_append_eq_append_take]
  exact List.prefix_append _ _

theorem fetchLoop_writes_inv (pas : List (List AttemptResult)) (limit m : Nat)
    (st : FetchState)
    (h1 : ∀ w ∈ st.writes, w.length ≤ limit)
    (h2 : List.Chain' (fun a b => a <+: b) st.writes)
    (h3 : st.writes.getLast? = some (st.profiles.take limit) ∨
          (st.writes = [] ∧ st.profiles = [])) :
    (∀ w ∈ (fetchLoop limit m pas st).writes, w.length ≤ limit) ∧
    List.Chain' (fun a b => a <+: b) (fetchLoop limit m pas st).writes ∧
    ((fetchLoop limit m pas st).writes.getLast? =
        some ((fetchLoop limit m pas st).profiles.take limit) ∨
      ((fetchLoop limit m pas st).writes = [] ∧ (fetchLoop limit m pas st).profiles = [])) := by
  induction pas generalizing st with
  | nil => exact ⟨h1, h2, h3⟩
  | cons atts rest ih =>
    rw [fetchLoop]
    by_cases hlen : st.profiles.length < limit
    · rw [if_pos hlen]
      cases hr : (retryPage m atts 0).1 with
      | none => exact ⟨h1, h2, h3⟩
      | some pg =>
        obtain ⟨t1, ht1⟩ := processPage_append pg st.seenEmails st.profiles
        refine ih _ ?_ ?_ ?_
        · intro w hw
          rcases List.mem_append.mp hw with hw' | hw'
          · exact h1 w hw'
          · rcases List.mem_singleton.mp hw' with rfl
            exact List.length_take_le _ _
        · refine List.chain'_append.mpr ⟨h2, List.chain'_singleton _, ?_⟩
          intro a ha b hb
          simp only [List.head?_cons, Option.mem_def, Option.some.injEq] at hb
          subst hb
          rcases h3 with h3' | ⟨h3a, _⟩
          · rw [h3', Option.mem_def, Option.some.injEq] at ha
            subst ha
            rw [ht1]
            exact take_prefix_append _ _ _
          · rw [h3a] at ha
            simp at ha
        · left
          simp [List.getLast?_concat]
    · rw [if_neg hlen]
      exact ⟨h1, h2, h3⟩

theorem fetchLoop_good (pas : List (List AttemptResult)) (limit m : Nat) (st : FetchState)
    (hp : ∀ q ∈ st.profiles, q.email ≠ "" ∧ ∃ s, q.email = jsTrim (jsToLower s))
    (hw : ∀ w ∈ st.writes, ∀ q ∈ w, q.email ≠ "" ∧ ∃ s, q.email = jsTrim (jsToLower s)) :
    (∀ q ∈ (fetchLoop limit m pas st).profiles,
        q.email ≠ "" ∧ ∃ s, q.email = jsTrim (jsToLower s)) ∧
    (∀ w ∈ (fetchLoop limit m pas st).writes, ∀ q ∈ w,
        q.email ≠ "" ∧ ∃ s, q.email = jsTrim (jsToLower s)) := by
  induction pas generalizing st with
  | nil => exact ⟨hp, hw⟩
  | cons atts rest ih =>
    rw [fetchLoop]
    by_cases hlen : st.profiles.length < limit
    · rw [if_pos hlen]
      cases hr : (retryPage m atts 0).1 with
      | none => exact ⟨hp, hw⟩
      | some pg =>
        have hp' := processPage_good pg st.seenEmails st.profiles hp
        refine ih _ hp' ?_
        intro w hwmem
        rcases List.mem_append.mp hwmem with hw' | hw'
        · exact hw w hw'
        · rcases List.mem_singleton.mp hw' with rfl
          intro q hq
          exact hp' q ((List.take_sublist _ _).subset hq)
    · rw [if_neg hlen]
      exact ⟨hp, hw⟩

theorem fetchLoop_profiles_append (pas : List (List AttemptResult)) (limit m : Nat)
    (st : FetchState) : ∃ t, (fetchLoop limit m pas st).profiles = st.profiles ++ t := by
  induction pas generalizing st with
  | nil => exact ⟨[], by simp [fetchLoop]⟩
  | cons atts rest ih =>
    rw [fetchLoop]
    by_cases hlen : st.profiles.length < limit
    · rw [if_pos hlen]
      cases hr : (retryPage m atts 0).1 with
      | none => exact ⟨[], by simp⟩
      | some pg =>
        obtain ⟨t1, ht1⟩ := processPage_append pg st.seenEmails st.profiles
        obtain ⟨t2, ht2⟩ := ih ⟨(processPage st.seenEmails st.profiles pg).1,
          (processPage st.seenEmails st.profiles pg).2,
          st.writes ++ [(processPage st.seenEmails st.profiles pg).2.take limit]⟩
        exact ⟨t1 ++ t2, by rw [ht2]; dsimp only; rw [ht1, List.append_assoc]⟩
    · rw [if_neg hlen]
      exact ⟨[], by simp⟩

theorem fetchLoop_ok_emails (pages : List (List ApiProfile)) (limit : Nat) (st : FetchState)
    (hiff : ∀ x, x ∈ st.seenEmails ↔ x ∈ st.profiles.map FetchProfile.email)
    (hnd : (st.profiles.map FetchProfile.email).Nodup)
    (hlen : (fetchLoop limit 3 (okPages pages) st).profiles.length < limit) :
    ((fetchLoop limit 3 (okPages pages) st).profiles.map FetchProfile.email).Nodup ∧
    (∀ x, x ∈ (fetchLoop limit 3 (okPages pages) st).profiles.map FetchProfile.email ↔
      x ∈ st.profiles.map FetchProfile.email ∨
        ∃ p ∈ pages.flatten, normEmail p = some x ∧ x ≠ "") := by
  induction pages generalizing st with
  | nil =>
    refine ⟨by simpa [okPages, fetchLoop] using hnd, fun x => ?_⟩
    simp [okPages, fetchLoop]
  | cons pg rest ih =>
    have hok : okPages (pg :: rest) = [AttemptResult.ok pg] :: okPages rest := by
      simp [okPages]
    rw [hok] at hlen ⊢
    have hrp : (retryPage 3 [AttemptResult.ok pg] 0).1 = some pg := by
      rw [retryPage_ok 3 pg [] 0 (by omega)]
    by_cases hl0 : st.profiles.length < limit
    · have hstep : fetchLoop limit 3 ([AttemptResult.ok pg] :: okPages rest) st =
          fetchLoop limit 3 (okPages rest)
            ⟨(processPage st.seenEmails st.profiles pg).1,
             (processPage st.seenEmails st.profiles pg).2,
             st.writes ++ [(processPage st.seenEmails st.profiles pg).2.take limit]⟩ := by
        rw [fetchLoop, if_pos hl0]
        rw [retryPage_ok 3 pg [] 0 (by omega)]
      rw [hstep] at hlen ⊢
      obtain ⟨i1, i2, i3⟩ := processPage_inv pg st.seenEmails st.profiles hiff hnd
      obtain ⟨j1, j2⟩ := ih _ i1 i2 hlen
      refine ⟨j1, fun x => ?_⟩
      rw [j2 x, i3 x]
      simp only [List.flatten_cons, List.mem_append]
      constructor
      · rintro ((hx | ⟨q, hq, hqe⟩) | ⟨q, hq, hqe⟩)
        · exact Or.inl hx
        · exact Or.inr ⟨q, Or.inl hq, hqe⟩
        · exact Or.inr ⟨q, Or.inr hq, hqe⟩
      · rintro (hx | ⟨q, hq | hq, hqe⟩)
        · exact Or.inl (Or.inl hx)
        · exact Or.inl (Or.inr ⟨q, hq, hqe⟩)
        · exact Or.inr ⟨q, hq, hqe⟩
    · have hstop : fetchLoop limit 3 ([AttemptResult.ok pg] :: okPages rest) st = st := by
        rw [fetchLoop, if_neg hl0]
      rw [hstop] at hlen
      exact absurd hlen hl0

theorem mem_insertDesc (x z : String × Nat) (l : List (String × Nat)) :
    z ∈ insertDesc x l ↔ z = x ∨ z ∈ l := by
  induction l with
  | nil => simp [insertDesc]
  | cons y ys ih =>
    rw [insertDesc]
    by_cases h : y.2 < x.2
    · rw [if_pos h]
      simp only [List.mem_cons]
    · rw [if_neg h]
      simp only [List.mem_cons, ih]
      tauto

theorem pairwise_insertDesc (x : String × Nat) (l : List (String × Nat))
    (h : List.Pairwise (fun a b => b.2 ≤ a.2) l) :
    List.Pairwise (fun a b => b.2 ≤ a.2) (insertDesc x l) := by
  induction l with
  | nil => simp [insertDesc]
  | cons y ys ih =>
    rcases List.pairwise_cons.mp h with ⟨hy, hys⟩
    rw [insertDesc]
    by_cases hlt : y.2 < x.2
    · rw [if_pos hlt]
      refine List.pairwise_cons.mpr ⟨?_, h⟩
      intro z hz
      rcases List.mem_cons.mp hz with rfl | hz'
      · exact Nat.le_of_lt hlt
      · exact le_trans (hy z hz') (Nat.le_of_lt hlt)
    · rw [if_neg hlt]
      refine List.pairwise_cons.mpr ⟨?_, ih hys⟩
      intro z hz
      rcases (mem_insertDesc x z ys).mp hz with rfl | hz'
      · exact Nat.le_of_not_lt hlt
      · exact hy z hz'

theorem pairwise_sortDesc (l : List (String × Nat)) :
    List.Pairwise (fun a b => b.2 ≤ a.2) (sortDesc l) := by
  induction l with
  | nil => simp [sortDesc]
  | cons x xs ih => exact pairwise_insertDesc x _ ih

/-! Section: Claim theorems -/

/-- C3: On a 429 rate-limited response, `getShopifyCustomerIdByEmail`
retries the same email after a fixed 1000 ms sleep, with no retry cap and
no backoff growth: for any number `n` of consecutive 429 responses
followed by a successful body listing customer `c`, the lookup performs
exactly `n` retries, each preceded by a 1000 ms sleep, and returns `c`
(so the profile is not skipped).  `n = 1` is the single-429 case. -/
theorem rate_limit_fixed_delay_retry (email : String) (n : Nat) (c : Customer)
    (rest : List ShopifyResp) :
    getShopifyCustomerIdByEmail email
        (List.replicate n ShopifyResp.rate ++ ShopifyResp.ok [c] :: rest) =
      (some c, List.replicate n 1000) := by
  induction n with
  | zero => simp [getShopifyCustomerIdByEmail]
  | succ k ih => simp [List.replicate_succ, getShopifyCustomerIdByEmail, ih]

/-- C4: A profile whose customer lookup fails, finds no customer, or whose
customer has no order produces no enriched record and appends nothing to
the log; its `processedCount` is still incremented and the loop continues
with the remaining profiles. -/
theorem failed_lookup_skipped_counted (pe : List String) (oracle : String → LookupResult)
    (st : EnrichState) (p : Profile) (rest : List Profile)
    (h1 : p.email ∉ pe) (h2 : lookupFailed (oracle p.email) = true) :
    enrichStep pe oracle st p = { st with processedCount := st.processedCount + 1 } ∧
    enrichKlaviyoProfiles pe oracle (p :: rest) st =
      enrichKlaviyoProfiles pe oracle rest
        { st with processedCount := st.processedCount + 1 } := by
  have hs : enrichStep pe oracle st p = { st with processedCount := st.processedCount + 1 } := by
    unfold enrichStep
    rw [if_neg h1]
    cases ho : oracle p.email <;> simp_all [lookupFailed]
  exact ⟨hs, by rw [enrichKlaviyoProfiles, hs]⟩

/-- Witness for C4 at a concrete input: a fresh email whose lookup finds no
customer is counted but writes nothing. -/
theorem failed_lookup_skipped_counted_witness :
    ((⟨"a@x.com", "p1"⟩ : Profile).email ∉ ([] : List String) ∧
      lookupFailed ((fun _ => LookupResult.noCustomer) "a@x.com") = true) ∧
    (enrichStep [] (fun _ => LookupResult.noCustomer) ⟨[], [], 0⟩ ⟨"a@x.com", "p1"⟩ =
        { enrichedProfiles := [], appended := [], processedCount := 1 } ∧
      enrichKlaviyoProfiles [] (fun _ => LookupResult.noCustomer)
          [⟨"a@x.com", "p1"⟩] ⟨[], [], 0⟩ =
        enrichKlaviyoProfiles [] (fun _ => LookupResult.noCustomer) []
          { enrichedProfiles := [], appended := [], processedCount := 1 }) :=
  ⟨⟨by decide, by decide⟩,
    failed_lookup_skipped_counted [] (fun _ => LookupResult.noCustomer)
      ⟨[], [], 0⟩ ⟨"a@x.com", "p1"⟩ [] (by decide) (by decide)⟩

/-- C9: Loading the processed-email set from the resumability log ignores
every line that fails to parse (warning once per such line, recorded in the
second component) and is never fatal; an email belongs to the resulting set
exactly when some parseable line carries it as a truthy `email` field,
regardless of malformed lines elsewhere in the file. -/
theorem load_processed_emails_spec (lines : List ParsedLine) :
    (∀ e : String, e ∈ (loadProcessedEmailsFromNDJSON lines).1 ↔
      ParsedLine.valid (some e) ∈ lines ∧ e ≠ "") ∧
    (loadProcessedEmailsFromNDJSON lines).2 =
      lines.filter (fun ln => ln = ParsedLine.invalid) := by
  refine ⟨fun e => mem_loadProcessedEmails lines e, ?_⟩
  rw [loadProcessedEmailsFromNDJSON, warnings_loadStep_foldl]
  simp

/-- C1 counterexample: with an empty prior log, an input list holding the
same email twice, and lookups that succeed, the run appends two records
for that email — the pre-loaded set is never updated during the run
(`updateProcessedProfiles` is a no-op), so it cannot enforce uniqueness
within one input list. -/
theorem duplicate_input_emails_counterexample :
    countEmail
      (finalLog []
        (runEnricher alwaysOrder [] [⟨"a@x.com", "p1"⟩, ⟨"a@x.com", "p2"⟩]).appended)
      "a@x.com" = 2 := by
  decide

/-- C1 (amended): provided the input profile list mentions each email at
most once, every input email is non-empty, and the prior log holds at most
one record per email, the final output log holds at most one record per
email; the pre-loaded set blocks every email already recorded in the log. -/
theorem log_at_most_one_record_per_email (oracle : String → LookupResult)
    (priorLines : List ParsedLine) (profiles : List Profile)
    (h1 : (profiles.map Profile.email).Nodup)
    (h2 : ∀ p ∈ profiles, p.email ≠ "")
    (h3 : ∀ e, countEmail priorLines e ≤ 1) :
    ∀ e, countEmail
        (finalLog priorLines (runEnricher oracle priorLines profiles).appended) e ≤ 1 := by
  intro e
  obtain ⟨t, ht1, ht2, ht3⟩ :=
    enrich_appended (loadProcessedEmailsFromNDJSON priorLines).1 oracle profiles ⟨[], [], 0⟩
  have happ : (runEnricher oracle priorLines profiles).appended = t := by
    simpa [runEnricher] using ht1
  rw [finalLog, happ, countEmail, List.countP_append]
  have hmap : List.countP (fun ln => decide (ln = ParsedLine.valid (some e)))
      (t.map recordLine) = (t.map EnrichedProfile.email).countP (fun x => decide (x = e)) := by
    rw [List.countP_map, List.countP_map]
    apply List.countP_congr
    intro r _
    simp [recordLine, Function.comp]
  rw [hmap]
  have hnd : (t.map EnrichedProfile.email).Nodup := ht2.nodup h1
  have hle : (t.map EnrichedProfile.email).countP (fun x => decide (x = e)) ≤ 1 :=
    countP_decide_le_one_of_nodup _ e hnd
  by_cases hprior : ParsedLine.valid (some e) ∈ priorLines ∧ e ≠ ""
  · have hpe : e ∈ (loadProcessedEmailsFromNDJSON priorLines).1 :=
      (mem_loadProcessedEmails _ _).mpr hprior
    have hzero : (t.map EnrichedProfile.email).countP (fun x => decide (x = e)) = 0 := by
      refine List.countP_eq_zero.mpr ?_
      intro x hx
      simp only [decide_eq_true_eq]
      rintro rfl
      obtain ⟨r, hr, hre⟩ := List.mem_map.mp hx
      exact ht3 r hr (hre ▸ hpe)
    have := h3 e
    rw [countEmail] at this
    omega
  · rcases not_and_or.mp hprior with hnp | he
    · have h0 : priorLines.countP (fun ln => decide (ln = ParsedLine.valid (some e))) = 0 := by
        refine List.countP_eq_zero.mpr ?_
        intro ln hln
        simp only [decide_eq_true_eq]
        rintro rfl
        exact hnp hln
      omega
    · have he' : e = "" := by
        by_contra hne
        exact he hne
      have hzero : (t.map EnrichedProfile.email).countP (fun x => decide (x = e)) = 0 := by
        refine List.countP_eq_zero.mpr ?_
        intro x hx
        simp only [decide_eq_true_eq]
        rintro rfl
        obtain ⟨r, hr, hre⟩ := List.mem_map.mp hx
        have hxe : x ∈ List.map Profile.email profiles := ht2.subset (hre ▸ List.mem_map_of_mem _ hr)
        obtain ⟨p, hp, hpe⟩ := List.mem_map.mp hxe
        exact h2 p hp (hpe.trans he')
      have := h3 e
      rw [countEmail] at this
      omega

/-- Witness for the amended C1 at a concrete input: one fresh profile
against an empty prior log. -/
theorem log_at_most_one_record_per_email_witness :
    ((([⟨"a@x.com", "p1"⟩] : List Profile).map Profile.email).Nodup ∧
      (∀ p ∈ ([⟨"a@x.com", "p1"⟩] : List Profile), p.email ≠ "") ∧
      (∀ e, countEmail [] e ≤ 1)) ∧
    ∀ e, countEmail
        (finalLog [] (runEnricher alwaysOrder [] [⟨"a@x.com", "p1"⟩]).appended) e ≤ 1 :=
  ⟨⟨by decide, by decide, fun e => by simp [countEmail]⟩,
    log_at_most_one_record_per_email alwaysOrder [] [⟨"a@x.com", "p1"⟩]
      (by decide) (by decide) (fun e => by simp [countEmail])⟩

/-- C2 counterexample: the resumability set only records truthy `email`
fields, so a log record whose `email` is the empty string does not protect
that email — re-running over a profile list containing it appends a second
record for it instead of skipping. -/
theorem rerun_logged_empty_email_counterexample :
    ParsedLine.valid (some "") ∈ [ParsedLine.valid (some "")] ∧
    countEmail
      (finalLog [ParsedLine.valid (some "")]
        (runEnricher alwaysOrder [ParsedLine.valid (some "")] [⟨"", "p1"⟩]).appended)
      "" = 2 := by
  decide

/-- C2 (amended): for every non-empty email `E` recorded in the log at the
start of a run, re-running over any profile list never appends a second
record for `E` (the count of `E`-records in the log is unchanged), and
every profile — the skipped ones for `E` included — is counted as
processed. -/
theorem rerun_never_appends_logged_email (oracle : String → LookupResult)
    (priorLines : List ParsedLine) (profiles : List Profile) (E : String)
    (hE : E ≠ "") (hmem : ParsedLine.valid (some E) ∈ priorLines) :
    (∀ r ∈ (runEnricher oracle priorLines profiles).appended, r.email ≠ E) ∧
    countEmail (finalLog priorLines (runEnricher oracle priorLines profiles).appended) E =
      countEmail priorLines E ∧
    (runEnricher oracle priorLines profiles).processedCount = profiles.length := by
  obtain ⟨t, ht1, ht2, ht3⟩ :=
    enrich_appended (loadProcessedEmailsFromNDJSON priorLines).1 oracle profiles ⟨[], [], 0⟩
  have happ : (runEnricher oracle priorLines profiles).appended = t := by
    simpa [runEnricher] using ht1
  have hpe : E ∈ (loadProcessedEmailsFromNDJSON priorLines).1 :=
    (mem_loadProcessedEmails _ _).mpr ⟨hmem, hE⟩
  have hne : ∀ r ∈ t, r.email ≠ E := by
    intro r hr hre
    exact ht3 r hr (hre ▸ hpe)
  refine ⟨by rw [happ]; exact hne, ?_, ?_⟩
  · rw [finalLog, happ, countEmail, countEmail, List.countP_append]
    have h0 : List.countP (fun ln => decide (ln = ParsedLine.valid (some E)))
        (t.map recordLine) = 0 := by
      refine List.countP_eq_zero.mpr ?_
      intro ln hln
      obtain ⟨r, hr, hrl⟩ := List.mem_map.mp hln
      simp only [decide_eq_true_eq]
      rintro rfl
      rw [recordLine] at hrl
      exact hne r hr (by injection hrl with h; injection h)
    omega
  · rw [runEnricher, enrich_count]
    simp

/-- Witness for the amended C2 at a concrete input: an email recorded in
the prior log is skipped on a re-run containing it. -/
theorem rerun_never_appends_logged_email_witness :
    (("a@x.com" : String) ≠ "" ∧
      ParsedLine.valid (some "a@x.com") ∈ [ParsedLine.valid (some "a@x.com")]) ∧
    ((∀ r ∈ (runEnricher alwaysOrder [ParsedLine.valid (some "a@x.com")]
        [⟨"a@x.com", "p1"⟩]).appended, r.email ≠ "a@x.com") ∧
      countEmail
          (finalLog [ParsedLine.valid (some "a@x.com")]
            (runEnricher alwaysOrder [ParsedLine.valid (some "a@x.com")]
              [⟨"a@x.com", "p1"⟩]).appended) "a@x.com" =
        countEmail [ParsedLine.valid (some "a@x.com")] "a@x.com" ∧
      (runEnricher alwaysOrder [ParsedLine.valid (some "a@x.com")]
          [⟨"a@x.com", "p1"⟩]).processedCount = 1) :=
  ⟨⟨by decide, by decide⟩,
    rerun_never_appends_logged_email alwaysOrder [ParsedLine.valid (some "a@x.com")]
      [⟨"a@x.com", "p1"⟩] "a@x.com" (by decide) (by decide)⟩

/-- C8: the chart selection returns at most 10 keys, sorted descending by
count, and on the test log of three A-records and one B-record the
aggregator yields counts 3 for `A (SKU: 1)` and 1 for `B (SKU: 2)` (with
`totalProfiles = 4`), both keys selected in that order. -/
theorem chart_counts_and_top_selection :
    (∀ counts : List (String × Nat), (topProducts counts).length ≤ 10 ∧
      List.Pairwise (fun a b => b.2 ≤ a.2) (topProducts counts)) ∧
    processNDJSON c8Lines = ([("A (SKU: 1)", 3), ("B (SKU: 2)", 1)], 4) ∧
    topProducts (processNDJSON c8Lines).1 = [("A (SKU: 1)", 3), ("B (SKU: 2)", 1)] := by
  refine ⟨fun counts => ⟨?_, ?_⟩, by decide, by decide⟩
  · simp [topProducts, List.length_take_le]
  · exact List.Pairwise.sublist (List.take_sublist _ _) (pairwise_sortDesc counts)

/-- C5: Over any sequence of fetched pages — duplicate emails across pages
included — as long as the limit is not reached, the fetcher's output
contains each normalized (lowercased, trimmed) email exactly once: the
output emails are pairwise distinct, and an email occurs in the output if
and only if it is a usable (present and non-empty after normalization)
email of some page profile. -/
theorem fetcher_emails_exactly_once (pages : List (List ApiProfile)) (limit : Nat)
    (hlen : (fetchAllKlaviyoSegmentProfiles limit 3 (okPages pages)).profiles.length < limit) :
    ((fetchAllKlaviyoSegmentProfiles limit 3 (okPages pages)).profiles.map
        FetchProfile.email).Nodup ∧
    ∀ e, e ∈ (fetchAllKlaviyoSegmentProfiles limit 3 (okPages pages)).profiles.map
        FetchProfile.email ↔ e ∈ usableEmails pages := by
  obtain ⟨hnd, hiff⟩ :=
    fetchLoop_ok_emails pages limit ⟨[], [], []⟩ (by simp) (by simp) hlen
  refine ⟨hnd, fun e => ?_⟩
  rw [fetchAllKlaviyoSegmentProfiles, hiff e]
  simp only [List.map_nil, List.not_mem_nil, false_or, usableEmails, List.mem_filter,
    List.mem_filterMap, decide_eq_true_eq]
  constructor
  · rintro ⟨q, hq, hqe, hne⟩
    exact ⟨⟨q, hq, hqe⟩, hne⟩
  · rintro ⟨⟨q, hq, hqe⟩, hne⟩
    exact ⟨q, hq, hqe, hne⟩

/-- Witness for C5 at concrete pages: `A@X.com ` on page one reappears
(normalized) as `a@x.com` on page two, one profile has no email, and one a
whitespace-only email. -/
theorem fetcher_emails_exactly_once_witness :
    ((fetchAllKlaviyoSegmentProfiles 10 3
        (okPages [[⟨some "A@X.com ", "p1"⟩, ⟨none, "p2"⟩, ⟨some " ", "p3"⟩],
          [⟨some "a@x.com", "p4"⟩, ⟨some "b@y.com", "p5"⟩]])).profiles.length < 10) ∧
    (((fetchAllKlaviyoSegmentProfiles 10 3
        (okPages [[⟨some "A@X.com ", "p1"⟩, ⟨none, "p2"⟩, ⟨some " ", "p3"⟩],
          [⟨some "a@x.com", "p4"⟩, ⟨some "b@y.com", "p5"⟩]])).profiles.map
        FetchProfile.email).Nodup ∧
      ∀ e, e ∈ (fetchAllKlaviyoSegmentProfiles 10 3
          (okPages [[⟨some "A@X.com ", "p1"⟩, ⟨none, "p2"⟩, ⟨some " ", "p3"⟩],
            [⟨some "a@x.com", "p4"⟩, ⟨some "b@y.com", "p5"⟩]])).profiles.map
          FetchProfile.email ↔
        e ∈ usableEmails [[⟨some "A@X.com ", "p1"⟩, ⟨none, "p2"⟩, ⟨some " ", "p3"⟩],
          [⟨some "a@x.com", "p4"⟩, ⟨some "b@y.com", "p5"⟩]]) :=
  ⟨by decide,
    fetcher_emails_exactly_once
      [[⟨some "A@X.com ", "p1"⟩, ⟨none, "p2"⟩, ⟨some " ", "p3"⟩],
        [⟨some "a@x.com", "p4"⟩, ⟨some "b@y.com", "p5"⟩]] 10 (by decide)⟩

/-- C6: A failing page request is retried while `attempt < maxRetries`,
sleeping `500 ms × attempt` after each failure (linearly increasing
backoff): `k` failures followed by a success (`k < maxRetries`) sleep
`500·1, …, 500·k` and return the page, `maxRetries` straight failures
sleep `500·1, …, 500·maxRetries` and return no page, and a page whose
retries exhaust stops the entire fetch at that page. -/
theorem page_retry_linear_backoff_then_stop (m k : Nat) (d : List ApiProfile)
    (restA : List AttemptResult) (hk : k < m) :
    (retryPage m (List.replicate k AttemptResult.err ++ AttemptResult.ok d :: restA) 0 =
      (some d, (List.range k).map (fun i => 500 * (i + 1)))) ∧
    (retryPage m (List.replicate m AttemptResult.err ++ restA) 0 =
      (none, (List.range m).map (fun i => 500 * (i + 1)))) ∧
    ∀ (limit : Nat) (atts : List AttemptResult) (restPages : List (List AttemptResult))
      (st : FetchState), (retryPage m atts 0).1 = none →
        fetchLoop limit m (atts :: restPages) st = st := by
  refine ⟨?_, ?_, ?_⟩
  · rw [retryPage_replicate_err m k (AttemptResult.ok d :: restA) 0 (by omega)]
    rw [retryPage_ok m d restA (0 + k) (by omega)]
    simp
  · rw [retryPage_replicate_err m m restA 0 (by omega)]
    rw [retryPage_stop m restA (0 + m) (by omega)]
    simp
  · intro limit atts restPages st hnone
    rw [fetchLoop]
    by_cases hlen : st.profiles.length < limit
    · rw [if_pos hlen, hnone]
    · rw [if_neg hlen]

/-- Witness for C6 at concrete values: `maxRetries = 3`, one failure then
a success. -/
theorem page_retry_linear_backoff_then_stop_witness :
    1 < 3 ∧
    ((retryPage 3 (List.replicate 1 AttemptResult.err ++
          AttemptResult.ok [] :: ([] : List AttemptResult)) 0 =
        (some [], (List.range 1).map (fun i => 500 * (i + 1)))) ∧
      (retryPage 3 (List.replicate 3 AttemptResult.err ++ ([] : List AttemptResult)) 0 =
        (none, (List.range 3).map (fun i => 500 * (i + 1)))) ∧
      ∀ (limit : Nat) (atts : List AttemptResult) (restPages : List (List AttemptResult))
        (st : FetchState), (retryPage 3 atts 0).1 = none →
          fetchLoop limit 3 (atts :: restPages) st = st) :=
  ⟨by decide, page_retry_linear_backoff_then_stop 3 1 [] [] (by decide)⟩

/-- C7: The fetcher's persisted output is an ordered sequence capped at
`limit` entries, written incrementally: every snapshot written to disk has
at most `limit` entries, each snapshot extends the previous one as a
prefix (so a crash loses at most the page in flight), and the last
snapshot — the final output — equals the accumulated profile sequence
truncated at `limit` (or no write ever happened and no profile was
fetched). -/
theorem snapshot_capped_and_incremental (limit m : Nat)
    (pas : List (List AttemptResult)) :
    (∀ w ∈ (fetchAllKlaviyoSegmentProfiles limit m pas).writes, w.length ≤ limit) ∧
    List.Chain' (fun a b => a <+: b) (fetchAllKlaviyoSegmentProfiles limit m pas).writes ∧
    ((fetchAllKlaviyoSegmentProfiles limit m pas).writes.getLast? =
        some ((fetchAllKlaviyoSegmentProfiles limit m pas).profiles.take limit) ∨
      ((fetchAllKlaviyoSegmentProfiles limit m pas).writes = [] ∧
        (fetchAllKlaviyoSegmentProfiles limit m pas).profiles = [])) :=
  fetchLoop_writes_inv pas limit m ⟨[], [], []⟩ (by simp) (by simp)
    (Or.inr ⟨rfl, rfl⟩)

/-- C10: Every profile entry the fetcher puts into its output and into any
persisted snapshot has a non-empty normalized email: the email survived
the truthiness check and is the lowercased, trimmed form of some source
attribute string; profiles without a usable email are dropped. -/
theorem snapshot_entries_have_normalized_email (limit m : Nat)
    (pas : List (List AttemptResult)) :
    (∀ q ∈ (fetchAllKlaviyoSegmentProfiles limit m pas).profiles,
        q.email ≠ "" ∧ ∃ s, q.email = jsTrim (jsToLower s)) ∧
    (∀ w ∈ (fetchAllKlaviyoSegmentProfiles limit m pas).writes, ∀ q ∈ w,
        q.email ≠ "" ∧ ∃ s, q.email = jsTrim (jsToLower s)) :=
  fetchLoop_good pas limit m ⟨[], [], []⟩ (by simp) (by simp)

end KLReport
